import Mathlib

/-!
Shallow embedding of the bladerunner repository (a-tal/bladerunner) for
specification checking.  Python strings are modeled as `List Char`; Python
`None`-or-value results as `Option`; a raised-and-uncaught Python exception as
the `Except.error` branch of `Except`.  Definitions follow the source files
`bladerunner/networking.py`, `bladerunner/formatting.py` and
`bladerunner/interactive.py` clause by clause.
-/

namespace Bladerunner

/-- The only Python exception class the embedded code can raise and not catch
on the networking paths: ValueError from int(). -/
inductive PyErr
  | valueError
deriving DecidableEq, Repr

/-- Python str.split(sep) for a one-character separator: every occurrence of
the separator starts a new field, and the empty string splits to [""]. -/
def pySplitChar (sep : Char) : List Char → List (List Char)
  | [] => [[]]
  | c :: cs =>
    if c = sep then [] :: pySplitChar sep cs
    else
      match pySplitChar sep cs with
      | [] => [[c]]
      | p :: ps => (c :: p) :: ps

/-- Value of a big-endian list of decimal digit characters. -/
def natFromDigits (ds : List Char) : Nat :=
  ds.foldl (fun a c => 10 * a + (c.toNat - '0'.toNat)) 0

/-- Modeled Python int(string): optional single sign followed by at least one
ASCII decimal digit.  (CPython additionally strips whitespace and allows
underscores between digits; no caller in this repository depends on that.)
Malformed text raises ValueError, as int() does. -/
def pyInt (s : List Char) : Except PyErr Int :=
  match s with
  | '-' :: ds =>
    if ds ≠ [] ∧ ds.all Char.isDigit then .ok (-(natFromDigits ds : Int))
    else .error .valueError
  | '+' :: ds =>
    if ds ≠ [] ∧ ds.all Char.isDigit then .ok (natFromDigits ds : Int)
    else .error .valueError
  | ds =>
    if ds ≠ [] ∧ ds.all Char.isDigit then .ok (natFromDigits ds : Int)
    else .error .valueError

/-- Python int(x, 2) on a string of binary digit characters. -/
def natOfBin (bits : List Char) : Nat :=
  bits.foldl (fun a c => 2 * a + (if c = '1' then 1 else 0)) 0

/-- Python str.rjust(width, fill): pad on the left, never truncate. -/
def rjust (l : List Char) (w : Nat) (fill : Char) : List Char :=
  List.replicate (w - l.length) fill ++ l

/-- Python str.ljust(width, fill): pad on the right, never truncate. -/
def ljust (l : List Char) (w : Nat) (fill : Char) : List Char :=
  l ++ List.replicate (w - l.length) fill

/-- Python sep.join(pieces) (also reused for the greedy-replace
characterization below). -/
def sepJoin (sep : List Char) : List (List Char) → List Char
  | [] => []
  | [p] => p
  | p :: q :: ps => p ++ sep ++ sepJoin sep (q :: ps)

/-- Slices l[0:size], l[size:2*size], ... of Python range-stepped slicing; the
first argument is structural fuel, sufficient whenever it is ≥ the list
length. -/
def pySlicesGo (size : Nat) : Nat → List Char → List (List Char)
  | _, [] => []
  | 0, l => [l]
  | fuel + 1, c :: cs => ((c :: cs).take size) :: pySlicesGo size fuel (List.drop (size - 1) cs)

/-- [l[i:i+size] for i in range(0, len(l), size)]. -/
def pySlices (size : Nat) (l : List Char) : List (List Char) :=
  pySlicesGo size l.length l

/-! ## networking.py -/

/-- networking._quadrant_to_ip: convert a single binary quadrant to a string
base 10 integer. -/
def _quadrant_to_ip (quadrant : List Char) : List Char :=
  Nat.toDigits 10 (natOfBin quadrant)

/-- networking._quadrant_to_binary: int(str(quadrant)); if it is in 0..255,
an 8-wide zero-padded binary string, otherwise Python falls off the function
returning None.  int() raises ValueError on non-numeric text. -/
def _quadrant_to_binary (quadrant : List Char) : Except PyErr (Option (List Char)) :=
  match pyInt quadrant with
  | .error e => .error e
  | .ok n =>
    if 0 ≤ n ∧ n ≤ 255 then
      .ok (some (rjust (Nat.toDigits 2 n.toNat) 8 '0'))
    else
      .ok none

/-- The loop of networking._ip_to_binary: convert quadrants left to right,
returning None at the first out-of-range quadrant (before any later quadrant
is parsed, matching Python's early return). -/
def _ip_to_binary_quads : List (List Char) → Except PyErr (Option (List Char))
  | [] => .ok (some [])
  | q :: qs =>
    match _quadrant_to_binary q with
    | .error e => .error e
    | .ok none => .ok none
    | .ok (some qb) =>
      match _ip_to_binary_quads qs with
      | .error e => .error e
      | .ok none => .ok none
      | .ok (some rest) => .ok (some (qb ++ rest))

/-- networking._ip_to_binary: join the quadrant bits, then
"{0:b}".format(int(bits, 2)).rjust(32, "0"). -/
def _ip_to_binary (ip : List Char) : Except PyErr (Option (List Char)) :=
  match _ip_to_binary_quads (pySplitChar '.' ip) with
  | .error e => .error e
  | .ok none => .ok none
  | .ok (some bits) => .ok (some (rjust (Nat.toDigits 2 (natOfBin bits)) 32 '0'))

/-- networking._binary_to_ip: 8-bit slices, each rendered in base 10, joined
with dots. -/
def _binary_to_ip (binary : List Char) : List Char :=
  sepJoin ['.'] ((pySlices 8 binary).map _quadrant_to_ip)

/-- networking._subnet_to_binary: split on "/", handle a numeric mask of
0..32 or a dotted mask, and convert the network part; (None, None) marks the
malformed cases the source checks for, while int() on non-numeric text
raises. -/
def _subnet_to_binary (subnet : List Char) :
    Except PyErr (Option (List Char) × Option (List Char)) :=
  match pySplitChar '/' subnet with
  | [net, mask] =>
    if ¬ mask.contains '.' then
      match pyInt mask with
      | .error e => .error e
      | .ok m =>
        if 0 ≤ m ∧ m ≤ 32 then
          match _ip_to_binary net with
          | .error e => .error e
          | .ok bn => .ok (bn, some (ljust (List.replicate m.toNat '1') 32 '0'))
        else
          -- invalid mask size, not that a /0 is much safer...
          .ok (none, none)
    else
      match _ip_to_binary mask with
      | .error e => .error e
      | .ok binary_mask =>
        match _ip_to_binary net with
        | .error e => .error e
        | .ok bn => .ok (bn, binary_mask)
  | _ => .ok (none, none)

/-- networking.ips_in_subnet: given a CIDR-ish network address, return all
member IPs; the loop "for ip_ in range(1, subnet_range)" skips the all-zero
host part and stops one short of the all-ones value. -/
def ips_in_subnet (subnet : List Char) : Except PyErr (Option (List (List Char))) :=
  match _subnet_to_binary subnet with
  | .error e => .error e
  | .ok (some binary_net, some binary_mask) =>
    match (binary_mask.take 32).findIdx? (fun c => c ≠ '1') with
    | none =>
      -- catches providing a /32 subnet mask, just return the network as an IP
      .ok (some [_binary_to_ip binary_net])
    | some i =>
      .ok (some ((List.range' 1 (natOfBin (List.replicate (32 - i) '1') - 1)).map (fun ip_ =>
        _binary_to_ip
          (binary_net.take i ++
            rjust (Nat.toDigits 2 ip_) (32 - (binary_net.take i).length) '0'))))
  | .ok _ => .ok none

/-! ## formatting.py : string cleanup and redaction -/

/-- Python whitespace characters recognized by str.strip() and the regex
class backslash-s (ASCII range). -/
def isPySpace (c : Char) : Bool :=
  c = ' ' ∨ c = '\t' ∨ c = '\n' ∨ c = '\r' ∨ c = '\x0b' ∨ c = '\x0c'

/-- Python str.strip(c) for a one-character argument: remove every leading
and trailing occurrence of that character. -/
def stripChar (c : Char) (l : List Char) : List Char :=
  ((l.dropWhile (fun x => x = c)).reverse.dropWhile (fun x => x = c)).reverse

/-- Python str.strip() with no argument: remove leading and trailing
whitespace. -/
def pyStripWS (l : List Char) : List Char :=
  ((l.dropWhile isPySpace).reverse.dropWhile isPySpace).reverse

/-- The scan of Python str.replace(old, new) for non-empty old: at each
position, if old matches, emit new and resume after the match, else keep one
character.  old is passed as head o and tail os so it is never empty. -/
def replaceGo (o : Char) (os : List Char) (new : List Char) : List Char → List Char
  | [] => []
  | c :: cs =>
    if (o :: os).isPrefixOf (c :: cs) then
      new ++ replaceGo o os new (List.drop os.length cs)
    else
      c :: replaceGo o os new cs
termination_by l => l.length
decreasing_by
  · simp only [List.length_drop, List.length_cons]; omega
  · simp only [List.length_cons]; omega

/-- The split underlying the same scan: pieces of text between the
non-overlapping left-to-right matches of old. -/
def splitGo (o : Char) (os : List Char) : List Char → List (List Char)
  | [] => [[]]
  | c :: cs =>
    if (o :: os).isPrefixOf (c :: cs) then
      [] :: splitGo o os (List.drop os.length cs)
    else
      match splitGo o os cs with
      | [] => [[c]]
      | p :: ps => (c :: p) :: ps
termination_by l => l.length
decreasing_by
  · simp only [List.length_drop, List.length_cons]; omega
  · simp only [List.length_cons]; omega

/-- Python str.replace(old, new).  For empty old, CPython interleaves new
around every character. -/
def pyReplace (old new s : List Char) : List Char :=
  match old with
  | [] => new ++ (s.map (fun c => c :: new)).flatten
  | o :: os => replaceGo o os new s

/-- Character class [0-9;] of the ANSI-escape regexes. -/
def ansiClass (c : Char) : Bool := c.isDigit ∨ c = ';'

/-- re.sub("\x1b\[[0-9;]+<t>", "", line): remove every non-overlapping match
of ESC '[' followed by at least one digit-or-semicolon and the terminator t
(t = 'm' for colors, t = 'G' for cursor tabs).  Since t is not in the class,
greedy maximal munch is exact. -/
def pySubCSI (t : Char) : List Char → List Char
  | [] => []
  | c :: cs =>
    if c = '\x1b' ∧ cs.head? = some '[' then
      let rest := cs.tail
      let run := rest.takeWhile ansiClass
      if 1 ≤ run.length ∧ (rest.drop run.length).head? = some t then
        pySubCSI t ((rest.drop run.length).tail)
      else
        c :: pySubCSI t cs
    else
      c :: pySubCSI t cs
termination_by l => l.length
decreasing_by
  · simp only [List.length_tail, List.length_drop, List.length_cons]; omega
  · simp only [List.length_cons]; omega
  · simp only [List.length_cons]; omega

/-- A password option value: Python passes either one string or a
list/tuple of strings. -/
inductive PwVal
  | str (s : List Char)
  | many (l : List (List Char))
deriving DecidableEq, Repr

/-- The option keys format_line reads ("password", "second_password",
"jump_password"); a missing key is none. -/
structure PyOptions where
  password : Option PwVal := none
  second_password : Option PwVal := none
  jump_password : Option PwVal := none
deriving DecidableEq, Repr

/-- Python truthiness of options.get(key): None, "" and [] are falsy. -/
def pwTruthy : Option PwVal → Bool
  | none => false
  | some (.str s) => s ≠ []
  | some (.many l) => l ≠ []

/-- One replacement pass of format_line's password loop:
line.replace(passwd, "*" * len(passwd)). -/
def redactOne (line passwd : List Char) : List Char :=
  pyReplace passwd (List.replicate passwd.length '*') line

/-- The body under "if password:" in format_line: a single string is
replaced once, a list is folded left to right. -/
def applyPw (line : List Char) (v : Option PwVal) : List Char :=
  if pwTruthy v then
    match v with
    | some (.str p) => redactOne line p
    | some (.many ps) => ps.foldl redactOne line
    | none => line
  else line

/-- The secret values format_line's password loop will actually touch for a
given option value: a truthy single string, or every element of a truthy
list. -/
def pwValues : Option PwVal → List (List Char)
  | none => []
  | some (.str s) => if s ≠ [] then [s] else []
  | some (.many l) => if l ≠ [] then l else []

/-- formatting.format_line: strip newlines, kill carriage returns, strip
the two ANSI escape patterns and the literal ESC'['m'\x0f', strip leading
whitespace, then hide each configured password behind an equal-length run
of '*'.  The codecs decode loop is the identity here because the model works
on text already. -/
def format_line (line : List Char) (options : PyOptions) : List Char :=
  let l := stripChar '\n' line             -- line.strip(os.linesep), POSIX
  let l := pyReplace ['\r'] [] l           -- no extra carriage returns
  let l := pySubCSI 'm' l                  -- no colours
  let l := pySubCSI 'G' l                  -- no crazy tabs
  let l := pyReplace ['\x1b', '[', 'm', '\x0f'] [] l
  let l := l.dropWhile isPySpace           -- re.sub("^\s+", "", line)
  let l := applyPw l options.password
  let l := applyPw l options.second_password
  applyPw l options.jump_password

/-! ## formatting.py : format_output -/

/-- Python str.splitlines() line-boundary characters (with "\r\n" counting
as one boundary, handled by the splitter itself). -/
def isLineBreak (c : Char) : Bool :=
  c = '\n' ∨ c = '\r' ∨ c = '\x0b' ∨ c = '\x0c' ∨
  c = '\x1c' ∨ c = '\x1d' ∨ c = '\x1e' ∨ c = '\u0085' ∨
  c = '\u2028' ∨ c = '\u2029'

/-- Python str.splitlines(): accumulator-based scan, no trailing empty
line. -/
def pySplitlinesGo (acc : List Char) : List Char → List (List Char)
  | [] => if acc.isEmpty then [] else [acc.reverse]
  | '\r' :: '\n' :: rest => acc.reverse :: pySplitlinesGo [] rest
  | c :: rest =>
    if isLineBreak c then acc.reverse :: pySplitlinesGo [] rest
    else pySplitlinesGo (c :: acc) rest

/-- Python str.splitlines(). -/
def pySplitlines (l : List Char) : List (List Char) :=
  pySplitlinesGo [] l

/-- format_output's nested cmd_in_line: only commands of length ≥ 60 are
checked, by searching the line for each 30-character slice of the
command. -/
def cmd_in_line (command line : List Char) : Bool :=
  if command.length < 60 then false
  else (pySlices 30 command).any (fun fraction => decide (fraction <:+: line))

/-- The loop of format_output over output[1:-1]: clean each line and keep
it when it is non-empty and no command fragment wrapped into it. -/
def format_output_go (command : List Char) (options : PyOptions) :
    List (List Char) → List (List Char)
  | [] => []
  | l :: ls =>
    let line := format_line l options
    if line ≠ [] ∧ ¬ cmd_in_line command line then
      line :: format_output_go command options ls
    else
      format_output_go command options ls

/-- formatting.format_output: drop the first line (the echoed command) and
the last line (probably the prompt), clean the rest, join with newlines. -/
def format_output (output command : List Char) (options : PyOptions) : List Char :=
  sepJoin ['\n'] (format_output_go command options (((pySplitlines output).drop 1).dropLast))

/-! ## formatting.py : consolidate

The results dictionaries from Bladerunner.run hold a "name" key (one target),
optionally a "names" key (after consolidation), and a "results" list of
(command, output) pairs.  consolidate mutates its input dictionaries: the
first dictionary of every group gets "names" set and "name" deleted, and is
aliased into the returned list, where later matches append to its "names".
The heap of input dictionaries is modeled positionally as a list that
List.set updates in place. -/

/-- One results dictionary. -/
structure HostResult where
  name : Option (List Char)
  names : Option (List (List Char))
  results : List (List Char × List Char)
deriving DecidableEq, Repr

/-- Reading a deleted key raises KeyError in Python; the model never reaches
that case and uses an inert default. -/
def hrDefault : HostResult := ⟨none, none, []⟩

/-- The mutation applied to a matched group dictionary:
tempserver["names"].append(server["name"]). -/
def updGroup (g s : HostResult) : HostResult :=
  { g with names := some (g.names.getD [] ++ [s.name.getD []]) }

/-- The in-place rewrite of a fresh group leader:
server["names"] = [server["name"]]; del server["name"]. -/
def newGroup (s : HostResult) : HostResult :=
  { s with name := none, names := some [s.name.getD []] }

/-- The inner "for tempserver in finalresults" loop: first index whose
dictionary's "results" equals the given one. -/
def findMatch (arr : List HostResult) (res : List (List Char × List Char)) :
    List Nat → Option Nat
  | [] => none
  | j :: js =>
    if (arr.getD j hrDefault).results = res then some j
    else findMatch arr res js

/-- One iteration of consolidate's outer loop, on the dictionary at index i:
either append its "name" to the first matching group's "names" (mutating
that aliased dictionary) or turn it into a new group in place. -/
def consolidateStep (arr : List HostResult) (finals : List Nat) (i : Nat) :
    List HostResult × List Nat :=
  match findMatch arr (arr.getD i hrDefault).results finals with
  | some j => (arr.set j (updGroup (arr.getD j hrDefault) (arr.getD i hrDefault)), finals)
  | none => (arr.set i (newGroup (arr.getD i hrDefault)), finals ++ [i])

/-- The mutating pass of consolidate after the first k iterations of the
outer loop: the heap of dictionaries and the indices gathered in
finalresults so far. -/
def consolidateStateAt (l : List HostResult) (k : Nat) : List HostResult × List Nat :=
  (List.range k).foldl (fun st i => consolidateStep st.1 st.2 i) (l, [])

/-- The whole mutating pass of consolidate: the final heap of dictionaries
and the list of indices aliased into finalresults. -/
def consolidateRun (l : List HostResult) : List HostResult × List Nat :=
  consolidateStateAt l l.length

/-- formatting.consolidate's return value: the aliased group dictionaries in
their final (fully mutated) state. -/
def consolidate (l : List HostResult) : List HostResult :=
  ((consolidateRun l).2).map (fun j => (consolidateRun l).1.getD j hrDefault)

/-- Pure functional account of one consolidate iteration: update the first
group with equal results, else append a new group. -/
def addServer (gs : List HostResult) (s : HostResult) : List HostResult :=
  match gs with
  | [] => [newGroup s]
  | g :: rest =>
    if g.results = s.results then updGroup g s :: rest
    else g :: addServer rest s

/-- Pure functional account of consolidate's output. -/
def consolidateP (l : List HostResult) : List HostResult :=
  l.foldl addServer []

/-- The distinct values of a list in order of first appearance. -/
def firstKeys {β : Type} [DecidableEq β] (l : List β) : List β :=
  l.foldl (fun acc r => if r ∈ acc then acc else acc ++ [r]) []

/-- The claim's description of consolidation: one group per distinct results
sequence, groups ordered by first appearance, members in first-seen order,
membership by deep equality of the results sequences. -/
def consolidateSpec (l : List HostResult) : List HostResult :=
  (firstKeys (l.map (fun s => s.results))).map (fun r =>
    { name := none
      names := some ((l.filter (fun s => s.results = r)).map (fun s => s.name.getD []))
      results := r })

/-! ## formatting.py : csv_results -/

/-- The options dictionary as csv_results reads it: the "csv_char" key is
either present (some, any string) or absent. -/
structure CsvOptions where
  csv_char : Option (List Char) := none
deriving DecidableEq, Repr

/-- formatting.no_empties: keep the truthy (non-empty) items, stripped of
surrounding whitespace (the codecs round trip is the identity on text). -/
def no_empties : List (List Char) → List (List Char)
  | [] => []
  | x :: xs =>
    if x ≠ [] then pyStripWS x :: no_empties xs
    else no_empties xs

/-- '"' * int(" " in field): one double quote exactly when the field
contains a space. -/
def csvQuote (field : List Char) : List Char :=
  if field.contains ' ' then ['"'] else []

/-- The quoting rule the CSV claim is checked against, specialized to what
the code does: wrap in double quotes exactly when the field contains a
space. -/
def quoteIffSpace (field : List Char) : List Char :=
  if field.contains ' ' then '"' :: (field ++ ['"']) else field

/-- The row template of csv_results:
{q}{name}{q}{csv}{q}{command}{q}{csv}{q}{result}{q}CRLF. -/
def csv_row (name command result sep : List Char) : List Char :=
  csvQuote name ++ name ++ csvQuote name ++ sep ++
  csvQuote command ++ command ++ csvQuote command ++ sep ++
  csvQuote result ++ result ++ csvQuote result ++ ['\r', '\n']

/-- server.get("name"), falling back (for falsy values: the catch for
consolidated results) to " ".join(server.get("names")).  A dictionary with
neither key would raise in Python; the model reads an empty names list. -/
def csv_server_name (server : HostResult) : List Char :=
  match server.name with
  | some n => if n ≠ [] then n else sepJoin [' '] (server.names.getD [])
  | none => sepJoin [' '] (server.names.getD [])

/-- The result field as csv_results prepares it:
"\n".join(no_empties(command_result.split("\n"))). -/
def csv_clean_result (result : List Char) : List Char :=
  sepJoin ['\n'] (no_empties (pySplitChar '\n' result))

/-- formatting.csv_results: the written lines, header first, then one row
per (server, command, result) in order. -/
def csv_results (results : List HostResult) (options : CsvOptions) :
    List (List Char) :=
  ("server".toList ++ options.csv_char.getD [','] ++ "command".toList ++
      options.csv_char.getD [','] ++ "result".toList ++ ['\r', '\n']) ::
    (results.map (fun server =>
      server.results.map (fun cr =>
        csv_row (csv_server_name server) cr.1 (csv_clean_result cr.2)
          (options.csv_char.getD [','])))).flatten

/-! ## interactive.py : BladerunnerInteractive

The Bladerunner base object (bladerunner/base.py) is not part of the
sources; its three transport operations are modeled from the spec's
external-interface contract and answered from a trace of transport events.
All other control flow below is translated from interactive.py. -/

/-- Result of one _send_cmd call: output text, the -1 no-response sentinel,
or a raised OSError with an errno. -/
inductive SendOutcome
  | out (s : List Char)
  | timeout
  | oserror (errno : Nat)
deriving DecidableEq, Repr

/-- One transport response drawn from the trace. -/
inductive TEvent
  | connected (handle : Nat) (err : Int)
  | sent (r : SendOutcome)
  | closeDone (err : Option Nat)
deriving DecidableEq, Repr

/-- The transport invocations the session makes, in order. -/
inductive TCall
  | callConnect (host : List Char)
  | callSend (cmd : List Char)
  | callClose
deriving DecidableEq, Repr

/-- self.sshr: False before any connection, None once ended, or a live
handle. -/
inductive Sshr
  | notConn
  | closedS
  | conn (h : Nat)
deriving DecidableEq, Repr

/-- The options BladerunnerInteractive's control flow depends on.
Credentials and ports only parametrize the transport calls and are omitted;
debug only gates log lines, which have no modeled effect. -/
structure IOpts where
  jump_host : Option (List Char) := none
deriving DecidableEq, Repr

/-- Python truthiness of options["jump_host"]. -/
def jumpTruthy (o : IOpts) : Bool :=
  match o.jump_host with
  | some j => j ≠ []
  | none => false

/-- Mutable state of one BladerunnerInteractive object (self.sshr) and its
bladerunner object (self.bladerunner.sshc). -/
structure ISt where
  sshr : Sshr
  sshc : Option Nat := none
deriving DecidableEq, Repr

/-- One machine configuration: object state, pending transport events, and
the log of transport calls made so far. -/
structure TS where
  st : ISt
  tr : List TEvent
  log : List TCall
deriving DecidableEq, Repr

/-- An uncaught Python exception (OSError with errno ≠ 5 is re-raised), a
trace whose next event does not answer the call actually made, or exhausted
recursion fuel. -/
inductive Fault
  | badTrace
  | osraise (errno : Nat)
  | fuelOut
deriving DecidableEq, Repr

/-- Modelled from the spec: Bladerunner.connect (bladerunner/base.py, not in
the sources) opens a transport to host and returns (handle, errorCode), a
negative errorCode meaning failure.  The response is drawn from the trace. -/
def brConnect (host : List Char) (s : TS) : Except Fault ((Nat × Int) × TS) :=
  match s.tr with
  | .connected h e :: rest =>
    .ok ((h, e), ⟨s.st, rest, s.log ++ [.callConnect host]⟩)
  | _ => .error .badTrace

/-- Modelled from the spec: Bladerunner._send_cmd (bladerunner/base.py, not
in the sources) sends a command and returns its output, a -1 sentinel on
command timeout, or raises OSError (errno 5 = connection dropped).  The
response is drawn from the trace. -/
def brSend (cmd : List Char) (s : TS) : Except Fault (SendOutcome × TS) :=
  match s.tr with
  | .sent r :: rest => .ok (r, ⟨s.st, rest, s.log ++ [.callSend cmd]⟩)
  | _ => .error .badTrace

/-- Modelled from the spec: Bladerunner.close (bladerunner/base.py, not in
the sources) closes a handle and either returns or raises OSError.  The
response is drawn from the trace. -/
def brClose (s : TS) : Except Fault (Option Nat × TS) :=
  match s.tr with
  | .closeDone e :: rest => .ok (e, ⟨s.st, rest, s.log ++ [.callClose]⟩)
  | _ => .error .badTrace

/-- The target-host half of BladerunnerInteractive.connect: connect to the
server, record self.sshr on success. -/
def connectTargetI (server : List Char) (status_return : Bool) (s : TS) :
    Except Fault (Option Bool × TS) :=
  match brConnect server s with
  | .error f => .error f
  | .ok ((h, e), s1) =>
    if e < 0 then
      .ok ((if status_return then some false else none), s1)
    else
      .ok ((if status_return then some true else none),
        { s1 with st := { s1.st with sshr := .conn h } })

/-- BladerunnerInteractive.connect: the jump hop first when configured (its
failure aborts without touching the target), then the target. -/
def connectI (o : IOpts) (server : List Char) (status_return : Bool) (s : TS) :
    Except Fault (Option Bool × TS) :=
  if jumpTruthy o then
    match brConnect (o.jump_host.getD []) s with
    | .error f => .error f
    | .ok ((h, e), s1) =>
      if e < 0 then
        .ok ((if status_return then some false else none), s1)
      else
        connectTargetI server status_return
          { s1 with st := { s1.st with sshc := some h } }
  else
    connectTargetI server status_return s

/-- BladerunnerInteractive.end: short-circuit when no live handle (leaving
self.sshr = None); otherwise close the target handle and, with a jump host,
the jump handle too.  OSError errno 5 is swallowed (skipping any remaining
close but still reaching self.sshr = None); any other errno re-raises,
leaving self.sshr untouched. -/
def endI (o : IOpts) (s : TS) : Except Fault TS :=
  match s.st.sshr with
  | .notConn => .ok { s with st := { s.st with sshr := .closedS } }
  | .closedS => .ok { s with st := { s.st with sshr := .closedS } }
  | .conn _ =>
    if jumpTruthy o then
      match brClose s with
      | .error f => .error f
      | .ok (some e, s1) =>
        if e ≠ 5 then .error (.osraise e)
        else .ok { s1 with st := { s1.st with sshr := .closedS } }
      | .ok (none, s1) =>
        match brClose s1 with
        | .error f => .error f
        | .ok (some e, s2) =>
          if e ≠ 5 then .error (.osraise e)
          else .ok { s2 with st := { s2.st with sshr := .closedS } }
        | .ok (none, s2) => .ok { s2 with st := { s2.st with sshr := .closedS } }
    else
      match brClose s with
      | .error f => .error f
      | .ok (some e, s1) =>
        if e ≠ 5 then .error (.osraise e)
        else .ok { s1 with st := { s1.st with sshr := .closedS } }
      | .ok (none, s1) => .ok { s1 with st := { s1.st with sshr := .closedS } }

/-- BladerunnerInteractive._reconnect (the KeyboardInterrupt handler is out
of modeled scope): end the session, then connect with status_return. -/
def reconnectI (o : IOpts) (server : List Char) (s : TS) :
    Except Fault (Option Bool × TS) :=
  match endI o s with
  | .error f => .error f
  | .ok s1 => connectI o server true s1

/-- "connection to {server} is closed". -/
def closedMsg (server : List Char) : List Char :=
  "connection to ".toList ++ server ++ " is closed".toList

/-- "connection to {server} was lost". -/
def lostMsg (server : List Char) : List Char :=
  "connection to ".toList ++ server ++ " was lost".toList

/-- "did not return after issuing: {command}". -/
def timeoutMsg (command : List Char) : List Char :=
  "did not return after issuing: ".toList ++ command

/-- Outcome of _login_if_not_already: True, or an error string returned to
the caller. -/
inductive LoginRes
  | success
  | message (msg : List Char)
deriving DecidableEq, Repr

/-- BladerunnerInteractive._login_if_not_already: connect lazily when
self.sshr is still False; afterwards any falsy self.sshr (False or None)
yields the "is closed" string. -/
def loginI (o : IOpts) (server : List Char) (s : TS) :
    Except Fault (LoginRes × TS) :=
  match s.st.sshr with
  | .notConn =>
    match connectI o server false s with
    | .error f => .error f
    | .ok (_, s1) =>
      match s1.st.sshr with
      | .conn _ => .ok (.success, s1)
      | _ => .ok (.message (closedMsg server), s1)
  | .closedS => .ok (.message (closedMsg server), s)
  | .conn _ => .ok (.success, s)

/-- BladerunnerInteractive.run with structural fuel for the self.run
recursion after a successful reconnect; each recursion consumes at least one
trace event, so fuel = trace length + 1 never runs out. -/
def runFuel (o : IOpts) (server : List Char) :
    Nat → List Char → TS → Except Fault (List Char × TS)
  | 0, _, _ => .error .fuelOut
  | fuel + 1, command, s =>
    match loginI o server s with
    | .error f => .error f
    | .ok (.message m, s1) => .ok (m, s1)
    | .ok (.success, s1) =>
      match brSend command s1 with
      | .error f => .error f
      | .ok (.oserror e, s2) =>
        if e = 5 then
          match reconnectI o server s2 with
          | .error f => .error f
          | .ok (some true, s3) => runFuel o server fuel command s3
          | .ok (_, s3) => .ok (lostMsg server, s3)
        else .error (.osraise e)
      | .ok (.timeout, s2) => .ok (timeoutMsg command, s2)
      | .ok (.out str, s2) => .ok (str, s2)

/-- BladerunnerInteractive.run. -/
def runI (o : IOpts) (server command : List Char) (s : TS) :
    Except Fault (List Char × TS) :=
  runFuel o server (s.tr.length + 1) command s

deriving instance DecidableEq for Except

/-! # Theorems -/

/-! ## networking.py lemmas -/

theorem natOfBin_ones_aux (n a : Nat) :
    List.foldl (fun a c => 2 * a + (if c = '1' then 1 else 0)) a
      (List.replicate n '1') = (a + 1) * 2 ^ n - 1 := by
  induction n generalizing a with
  | zero => simp
  | succ n ih =>
    rw [List.replicate_succ, List.foldl_cons, ih]
    have h : (2 * a + (if ('1' : Char) = '1' then 1 else 0) + 1) * 2 ^ n =
        (a + 1) * 2 ^ (n + 1) := by
      rw [if_pos rfl]; ring
    omega

theorem natOfBin_ones (n : Nat) :
    natOfBin (List.replicate n '1') = 2 ^ n - 1 := by
  unfold natOfBin
  rw [natOfBin_ones_aux]
  omega

/-- Unfolding of ips_in_subnet on a well-formed subnet whose mask has a zero
bit at position i: the members list enumerates host numbers
1 .. subnet_range - 1 with subnet_range = int("1" * (32 - i), 2). -/
theorem ips_in_subnet_members (s bn bm : List Char) (i : Nat)
    (hsb : _subnet_to_binary s = .ok (some bn, some bm))
    (hidx : (bm.take 32).findIdx? (fun c => c ≠ '1') = some i) :
    ips_in_subnet s = .ok (some
      ((List.range' 1 (natOfBin (List.replicate (32 - i) '1') - 1)).map (fun ip_ =>
        _binary_to_ip
          (bn.take i ++ rjust (Nat.toDigits 2 ip_) (32 - (bn.take i).length) '0')))) := by
  unfold ips_in_subnet
  rw [hsb]
  simp only [hidx]

theorem ips_in_subnet_quads_none (qs : List (List Char))
    (hall : ∀ q ∈ qs, ∃ n, pyInt q = .ok n)
    (hbad : ∃ q ∈ qs, ∃ n, pyInt q = .ok n ∧ (n < 0 ∨ 255 < n)) :
    _ip_to_binary_quads qs = .ok none := by
  induction qs with
  | nil => simp at hbad
  | cons q rest ih =>
    obtain ⟨n, hn⟩ := hall q (by simp)
    unfold _ip_to_binary_quads _quadrant_to_binary
    rw [hn]
    by_cases hr : 0 ≤ n ∧ n ≤ 255
    · have hbad' : ∃ q ∈ rest, ∃ n, pyInt q = .ok n ∧ (n < 0 ∨ 255 < n) := by
        rcases hbad with ⟨q', hq', n', hn', hout⟩
        rcases List.mem_cons.mp hq' with h | h
        · subst h; rw [hn] at hn'
          cases hn'
          omega
        · exact ⟨q', h, n', hn', hout⟩
      have := ih (fun q hq => hall q (List.mem_cons_of_mem _ hq)) hbad'
      simp [hr, this]
    · simp [hr]

/-- All quadrants of an address parse as ints but one is outside 0..255:
_ip_to_binary returns None (not an exception). -/
theorem ips_in_subnet_octet_out_of_range (ip : List Char)
    (hall : ∀ q ∈ pySplitChar '.' ip, ∃ n, pyInt q = .ok n)
    (hbad : ∃ q ∈ pySplitChar '.' ip, ∃ n, pyInt q = .ok n ∧ (n < 0 ∨ 255 < n)) :
    _ip_to_binary ip = .ok none := by
  unfold _ip_to_binary
  rw [ips_in_subnet_quads_none _ hall hbad]

/-- C2 counterexample: for "10.0.0.0/30" (hostBits = 2) the all-ones host
part 3 denotes "10.0.0.3", yet the returned list is exactly
["10.0.0.1", "10.0.0.2"]: the all-ones (broadcast) address does NOT appear,
contradicting the claim that host integers run through 2^hostBits - 1
inclusive. -/
theorem C2_broadcast_missing_cex :
    ips_in_subnet "10.0.0.0/30".toList =
      .ok (some ["10.0.0.1".toList, "10.0.0.2".toList]) ∧
    _binary_to_ip ("000010100000000000000000000000".toList ++
      rjust (Nat.toDigits 2 3) 2 '0') = "10.0.0.3".toList ∧
    "10.0.0.3".toList ∉ ["10.0.0.1".toList, "10.0.0.2".toList] := by
  refine ⟨by decide, by decide, by decide⟩

/-- C2 (amended): for every well-formed subnet whose mask has a zero bit at
position i (hostBits = 32 - i ≥ 1), ips_in_subnet enumerates host integers
1 through 2^hostBits - 2 inclusive: the all-zero host part (network address)
AND the all-ones host part (broadcast address) are both skipped, because
range(1, subnet_range) stops one short of subnet_range = 2^hostBits - 1. -/
theorem C2_amended_hosts_enumerated (s bn bm : List Char) (i : Nat)
    (hsb : _subnet_to_binary s = .ok (some bn, some bm))
    (hidx : (bm.take 32).findIdx? (fun c => c ≠ '1') = some i) :
    ips_in_subnet s = .ok (some
      ((List.range' 1 (2 ^ (32 - i) - 2)).map (fun ip_ =>
        _binary_to_ip
          (bn.take i ++ rjust (Nat.toDigits 2 ip_) (32 - (bn.take i).length) '0')))) := by
  have h := ips_in_subnet_members s bn bm i hsb hidx
  rw [natOfBin_ones] at h
  have h2 : 2 ^ (32 - i) - 1 - 1 = 2 ^ (32 - i) - 2 := by omega
  rw [h2] at h
  exact h

/-- Witness for C2 (amended) at "10.0.0.0/30". -/
theorem C2_amended_hosts_enumerated_witness :
    _subnet_to_binary "10.0.0.0/30".toList =
      .ok (some "00001010000000000000000000000000".toList,
        some "11111111111111111111111111111100".toList) ∧
    ips_in_subnet "10.0.0.0/30".toList = .ok (some
      ((List.range' 1 (2 ^ (32 - 30) - 2)).map (fun ip_ =>
        _binary_to_ip ("00001010000000000000000000000000".toList.take 30 ++
          rjust (Nat.toDigits 2 ip_)
            (32 - ("00001010000000000000000000000000".toList.take 30).length) '0')))) :=
  ⟨by decide,
    C2_amended_hosts_enumerated "10.0.0.0/30".toList
      "00001010000000000000000000000000".toList
      "11111111111111111111111111111100".toList 30 (by decide) (by decide)⟩

/-- C3: the four example evaluations of ips_in_subnet:
"10.0.0.0/30" gives exactly ["10.0.0.1", "10.0.0.2"]; "192.168.16.5/32"
gives exactly ["192.168.16.5"]; "10.9.8.0/34" gives null; and "1.2.3.4" is
a member of the list for "1.2.3.4/16". -/
theorem C3_example_subnets :
    ips_in_subnet "10.0.0.0/30".toList =
      .ok (some ["10.0.0.1".toList, "10.0.0.2".toList]) ∧
    ips_in_subnet "192.168.16.5/32".toList = .ok (some ["192.168.16.5".toList]) ∧
    ips_in_subnet "10.9.8.0/34".toList = .ok none ∧
    ∃ l, ips_in_subnet "1.2.3.4/16".toList = .ok (some l) ∧ "1.2.3.4".toList ∈ l := by
  refine ⟨by decide, by decide, by decide, ?_⟩
  have h := ips_in_subnet_members "1.2.3.4/16".toList
    "00000001000000100000001100000100".toList
    "11111111111111110000000000000000".toList 16 (by decide) (by decide)
  refine ⟨_, h, ?_⟩
  refine List.mem_map.mpr ⟨772, ?_, by decide⟩
  have h2 : natOfBin (List.replicate (32 - 16) '1') - 1 = 65534 := by decide
  rw [h2]
  exact List.mem_range'.mpr ⟨771, by omega, by omega⟩

/-- C7 counterexample: a subnet with non-numeric octets makes int() raise
ValueError, which no function on the path catches: the call does not return
a null result, contradicting the claim that every malformed input of the
listed kinds yields null without raising. -/
theorem C7_nonnumeric_octet_raises_cex :
    ips_in_subnet "a.b.c.d/24".toList = .error .valueError := by decide

/-- C7 (amended): the malformed kinds the source checks for do yield null
without raising: a missing (or repeated) slash; a numeric non-dotted mask
outside 0..32 (rejected before the network part is even parsed); an address
all of whose octets parse as ints but one lies outside 0..255; and, provided
the rest of the input parses without raising, such an out-of-range address
in the network or dotted-mask position.  Non-numeric octets, by contrast,
raise ValueError (see the counterexample). -/
theorem C7_amended_malformed_null :
    (∀ s, (pySplitChar '/' s).length ≠ 2 → ips_in_subnet s = .ok none) ∧
    (∀ s net mask m, pySplitChar '/' s = [net, mask] → mask.contains '.' = false →
      pyInt mask = .ok m → (m < 0 ∨ 32 < m) → ips_in_subnet s = .ok none) ∧
    (∀ ip, (∀ q ∈ pySplitChar '.' ip, ∃ n, pyInt q = .ok n) →
      (∃ q ∈ pySplitChar '.' ip, ∃ n, pyInt q = .ok n ∧ (n < 0 ∨ 255 < n)) →
      _ip_to_binary ip = .ok none) ∧
    (∀ s net mask m, pySplitChar '/' s = [net, mask] → mask.contains '.' = false →
      pyInt mask = .ok m → 0 ≤ m → m ≤ 32 → _ip_to_binary net = .ok none →
      ips_in_subnet s = .ok none) ∧
    (∀ s net mask bnr, pySplitChar '/' s = [net, mask] → mask.contains '.' = true →
      _ip_to_binary mask = .ok none → _ip_to_binary net = .ok bnr →
      ips_in_subnet s = .ok none) := by
  refine ⟨?_, ?_, ips_in_subnet_octet_out_of_range, ?_, ?_⟩
  · intro s h
    rcases hsp : pySplitChar '/' s with _ | ⟨a, _ | ⟨b, _ | ⟨c, l⟩⟩⟩
    · simp [ips_in_subnet, _subnet_to_binary, hsp]
    · simp [ips_in_subnet, _subnet_to_binary, hsp]
    · rw [hsp] at h; simp at h
    · simp [ips_in_subnet, _subnet_to_binary, hsp]
  · intro s net mask m hsp hdot hpm hout
    have hdotP : ¬ ('.' ∈ mask) := by simpa using hdot
    have hno : ¬ (0 ≤ m ∧ m ≤ 32) := by omega
    have hsb : _subnet_to_binary s = .ok (none, none) := by
      simp [_subnet_to_binary, hsp, hdotP, hpm, hno]
    simp [ips_in_subnet, hsb]
  · intro s net mask m hsp hdot hpm hm0 hm32 hnet
    have hdotP : ¬ ('.' ∈ mask) := by simpa using hdot
    have hyes : 0 ≤ m ∧ m ≤ 32 := ⟨hm0, hm32⟩
    have hsb : _subnet_to_binary s =
        .ok (none, some (ljust (List.replicate m.toNat '1') 32 '0')) := by
      simp [_subnet_to_binary, hsp, hdotP, hpm, hyes, hnet]
    simp [ips_in_subnet, hsb]
  · intro s net mask bnr hsp hdot hmask hnet
    have hdotP : ('.' ∈ mask) := by simpa using hdot
    have hsb : _subnet_to_binary s = .ok (bnr, none) := by
      simp [_subnet_to_binary, hsp, hdotP, hmask, hnet]
    rcases bnr with _ | bn <;> simp [ips_in_subnet, hsb]

/-- Witness for C7 (amended), one concrete input per conjunct. -/
theorem C7_amended_malformed_null_witness :
    ips_in_subnet "10.0.0.0".toList = .ok none ∧
    ips_in_subnet "10.9.8.0/34".toList = .ok none ∧
    _ip_to_binary "10.10.256.10".toList = .ok none ∧
    ips_in_subnet "10.10.256.10/24".toList = .ok none ∧
    ips_in_subnet "10.10.10.0/255.255.300.0".toList = .ok none := by
  refine ⟨C7_amended_malformed_null.1 _ (by decide),
    C7_amended_malformed_null.2.1 _ "10.9.8.0".toList "34".toList 34
      (by decide) (by decide) (by decide) (Or.inr (by omega)),
    C7_amended_malformed_null.2.2.1 "10.10.256.10".toList ?_ ?_,
    C7_amended_malformed_null.2.2.2.1 _ "10.10.256.10".toList "24".toList 24
      (by decide) (by decide) (by decide) (by omega) (by omega) (by decide),
    C7_amended_malformed_null.2.2.2.2 _ "10.10.10.0".toList "255.255.300.0".toList
      (some "00001010000010100000101000000000".toList)
      (by decide) (by decide) (by decide) (by decide)⟩
  · intro q hq
    rw [show pySplitChar '.' "10.10.256.10".toList =
      ["10".toList, "10".toList, "256".toList, "10".toList] from by decide] at hq
    have hq2 : q = "10".toList ∨ q = "10".toList ∨ q = "256".toList ∨
        q = "10".toList := by simpa using hq
    rcases hq2 with rfl | rfl | rfl | rfl
    · exact ⟨10, by decide⟩
    · exact ⟨10, by decide⟩
    · exact ⟨256, by decide⟩
    · exact ⟨10, by decide⟩
  · exact ⟨"256".toList, by decide, 256, by decide, by omega⟩

/-! ## consolidate lemmas -/

theorem getD_set_self {α : Type} (l : List α) (j : Nat) (v d : α)
    (h : j < l.length) : (l.set j v).getD j d = v := by
  rw [List.getD_eq_getElem?_getD, List.getElem?_set]
  simp [h]

theorem getD_set_ne {α : Type} (l : List α) (i j : Nat) (v d : α)
    (h : j ≠ i) : (l.set j v).getD i d = l.getD i d := by
  rw [List.getD_eq_getElem?_getD, List.getElem?_set, if_neg h,
    List.getD_eq_getElem?_getD]

theorem mem_firstKeys_aux {β : Type} [DecidableEq β] (l acc : List β) (x : β) :
    x ∈ l.foldl (fun acc r => if r ∈ acc then acc else acc ++ [r]) acc ↔
      x ∈ acc ∨ x ∈ l := by
  induction l generalizing acc with
  | nil => simp
  | cons y ys ih =>
    rw [List.foldl_cons, ih]
    by_cases hy : y ∈ acc
    · simp only [if_pos hy, List.mem_cons]
      constructor
      · rintro (h | h)
        · exact Or.inl h
        · exact Or.inr (Or.inr h)
      · rintro (h | rfl | h)
        · exact Or.inl h
        · exact Or.inl hy
        · exact Or.inr h
    · simp only [if_neg hy, List.mem_append, List.mem_singleton, List.mem_cons]
      tauto

theorem mem_firstKeys {β : Type} [DecidableEq β] (l : List β) (x : β) :
    x ∈ firstKeys l ↔ x ∈ l := by
  unfold firstKeys
  rw [mem_firstKeys_aux]
  simp

theorem nodup_firstKeys_aux {β : Type} [DecidableEq β] (l acc : List β)
    (h : acc.Nodup) :
    (l.foldl (fun acc r => if r ∈ acc then acc else acc ++ [r]) acc).Nodup := by
  induction l generalizing acc with
  | nil => simpa
  | cons y ys ih =>
    rw [List.foldl_cons]
    by_cases hy : y ∈ acc
    · rw [if_pos hy]; exact ih acc h
    · rw [if_neg hy]
      refine ih _ ?_
      simp [List.nodup_append, h, List.disjoint_singleton, hy]

theorem nodup_firstKeys {β : Type} [DecidableEq β] (l : List β) :
    (firstKeys l).Nodup :=
  nodup_firstKeys_aux l [] List.nodup_nil

theorem firstKeys_append_single {β : Type} [DecidableEq β] (l : List β) (x : β) :
    firstKeys (l ++ [x]) =
      if x ∈ firstKeys l then firstKeys l else firstKeys l ++ [x] := by
  unfold firstKeys
  rw [List.foldl_append]
  rfl

theorem addServer_no_match (gs : List HostResult) (s : HostResult)
    (h : ∀ g ∈ gs, g.results ≠ s.results) :
    addServer gs s = gs ++ [newGroup s] := by
  induction gs with
  | nil => rfl
  | cons g rest ih =>
    unfold addServer
    rw [if_neg (h g (by simp)), ih (fun g' hg' => h g' (by simp [hg']))]
    simp

theorem map_update_id (gs : List HostResult) (s : HostResult)
    (h : ∀ g ∈ gs, g.results ≠ s.results) :
    gs.map (fun g => if g.results = s.results then updGroup g s else g) = gs := by
  induction gs with
  | nil => rfl
  | cons g rest ih =>
    simp only [List.map_cons, if_neg (h g (by simp))]
    rw [ih (fun g' hg' => h g' (by simp [hg']))]

theorem addServer_of_mem (gs : List HostResult) (s : HostResult)
    (hnd : (gs.map (fun g => g.results)).Nodup)
    (hmem : s.results ∈ gs.map (fun g => g.results)) :
    addServer gs s =
      gs.map (fun g => if g.results = s.results then updGroup g s else g) := by
  induction gs with
  | nil => simp at hmem
  | cons g rest ih =>
    simp only [List.map_cons, List.nodup_cons] at hnd
    by_cases hg : g.results = s.results
    · unfold addServer
      rw [if_pos hg, List.map_cons, if_pos hg]
      have hrest : ∀ g' ∈ rest, g'.results ≠ s.results := by
        intro g' hg' hcontra
        exact hnd.1 (by rw [hg, ← hcontra]; exact List.mem_map_of_mem _ hg')
      rw [map_update_id rest s hrest]
    · unfold addServer
      rw [if_neg hg, List.map_cons, if_neg hg]
      have hmem' : s.results ∈ rest.map (fun g => g.results) := by
        rcases (by simpa using hmem :
            s.results = g.results ∨ ∃ a ∈ rest, a.results = s.results) with
          h | ⟨a, ha, hae⟩
        · exact absurd h.symm hg
        · exact hae ▸ List.mem_map_of_mem _ ha
      rw [ih hnd.2 hmem']

theorem addServer_first_match (gs1 gs2 : List HostResult) (t s : HostResult)
    (h1 : ∀ g ∈ gs1, g.results ≠ s.results) (ht : t.results = s.results) :
    addServer (gs1 ++ t :: gs2) s = gs1 ++ updGroup t s :: gs2 := by
  induction gs1 with
  | nil => simp [addServer, ht]
  | cons g rest ih =>
    simp only [List.cons_append]
    unfold addServer
    rw [if_neg (h1 g (by simp)), ih (fun g' hg' => h1 g' (by simp [hg']))]

theorem results_consolidateSpec (l : List HostResult) :
    (consolidateSpec l).map (fun g => g.results) =
      firstKeys (l.map (fun s => s.results)) := by
  unfold consolidateSpec
  rw [List.map_map]
  have hco : ((fun g => g.results) ∘ fun r =>
      ({ name := none
         names := some ((l.filter (fun s => s.results = r)).map (fun s => s.name.getD []))
         results := r } : HostResult)) = fun r => r := rfl
  rw [hco, List.map_id']

theorem consolidateSpec_append (l : List HostResult) (s : HostResult) :
    consolidateSpec (l ++ [s]) = addServer (consolidateSpec l) s := by
  by_cases hm : s.results ∈ l.map (fun x => x.results)
  · -- the key is already present: the unique matching group gains a name
    have hmk : s.results ∈ firstKeys (l.map (fun x => x.results)) :=
      (mem_firstKeys _ _).mpr hm
    have hkeys : firstKeys ((l ++ [s]).map (fun x => x.results)) =
        firstKeys (l.map (fun x => x.results)) := by
      rw [List.map_append, List.map_singleton, firstKeys_append_single, if_pos hmk]
    rw [addServer_of_mem _ s (by rw [results_consolidateSpec]; exact nodup_firstKeys _)
      (by rw [results_consolidateSpec]; exact hmk)]
    unfold consolidateSpec
    rw [hkeys, List.map_map]
    refine List.map_congr_left ?_
    intro r _
    simp only [Function.comp]
    by_cases hr : r = s.results
    · subst hr
      rw [if_pos rfl]
      unfold updGroup
      simp only [List.filter_append, List.map_append, Option.getD_some]
      congr 1
      simp
    · have hsr : ¬ (s.results = r) := fun h => hr h.symm
      rw [if_neg hr]
      simp only [List.filter_append, List.map_append]
      have hfs : List.filter (fun x => decide (x.results = r)) [s] = [] := by
        simp [hsr]
      rw [hfs]
      simp
  · -- fresh key: a new group is appended at the end
    have hmk : s.results ∉ firstKeys (l.map (fun x => x.results)) := by
      rw [mem_firstKeys]; exact hm
    have hkeys : firstKeys ((l ++ [s]).map (fun x => x.results)) =
        firstKeys (l.map (fun x => x.results)) ++ [s.results] := by
      rw [List.map_append, List.map_singleton, firstKeys_append_single, if_neg hmk]
    have hnog : ∀ g ∈ consolidateSpec l, g.results ≠ s.results := by
      intro g hg hcontra
      have : g.results ∈ (consolidateSpec l).map (fun g => g.results) :=
        List.mem_map_of_mem _ hg
      rw [results_consolidateSpec] at this
      exact hmk (hcontra ▸ this)
    rw [addServer_no_match _ _ hnog]
    unfold consolidateSpec
    rw [hkeys, List.map_append]
    congr 1
    · refine List.map_congr_left ?_
      intro r hr
      have hrs : r ≠ s.results := fun h => hmk (h ▸ hr)
      have hsr : ¬ (s.results = r) := fun h => hrs h.symm
      simp only [List.filter_append, List.map_append]
      have hfs : List.filter (fun x => decide (x.results = r)) [s] = [] := by
        simp [hsr]
      rw [hfs]
      simp
    · simp only [List.map_singleton]
      unfold newGroup
      have hfl : List.filter (fun x => decide (x.results = s.results)) l = [] := by
        rw [List.filter_eq_nil_iff]
        intro a ha
        simp only [decide_eq_true_eq]
        intro hc
        exact hm (hc ▸ List.mem_map_of_mem _ ha)
      simp [List.filter_append, hfl]

theorem consolidateP_append (l : List HostResult) (s : HostResult) :
    consolidateP (l ++ [s]) = addServer (consolidateP l) s := by
  unfold consolidateP
  rw [List.foldl_append]
  rfl

theorem consolidateP_eq_spec (l : List HostResult) :
    consolidateP l = consolidateSpec l := by
  induction l using List.reverseRecOn with
  | nil => rfl
  | append_singleton l s ih =>
    rw [consolidateP_append, consolidateSpec_append, ih]

theorem findMatch_none_iff (arr : List HostResult)
    (res : List (List Char × List Char)) (fin : List Nat) :
    findMatch arr res fin = none ↔
      ∀ j ∈ fin, (arr.getD j hrDefault).results ≠ res := by
  induction fin with
  | nil => simp [findMatch]
  | cons j js ih =>
    unfold findMatch
    by_cases hj : (arr.getD j hrDefault).results = res
    · rw [if_pos hj]
      constructor
      · intro h
        exact absurd h (by simp)
      · intro h
        exact absurd hj (h j (List.mem_cons_self j js))
    · rw [if_neg hj, ih]
      constructor
      · intro h j' hj'
        rcases List.mem_cons.mp hj' with rfl | hm
        · exact hj
        · exact h j' hm
      · intro h j' hj'
        exact h j' (List.mem_cons_of_mem _ hj')

theorem findMatch_some_split (arr : List HostResult)
    (res : List (List Char × List Char)) (fin : List Nat) (j : Nat)
    (h : findMatch arr res fin = some j) :
    ∃ f1 f2, fin = f1 ++ j :: f2 ∧
      (∀ j' ∈ f1, (arr.getD j' hrDefault).results ≠ res) ∧
      (arr.getD j hrDefault).results = res := by
  induction fin with
  | nil => simp [findMatch] at h
  | cons j0 js ih =>
    unfold findMatch at h
    by_cases hj0 : (arr.getD j0 hrDefault).results = res
    · rw [if_pos hj0] at h
      cases h
      exact ⟨[], js, rfl, by simp, hj0⟩
    · rw [if_neg hj0] at h
      obtain ⟨f1, f2, hfin, hf1, hj⟩ := ih h
      refine ⟨j0 :: f1, f2, by simp [hfin], ?_, hj⟩
      intro j' hj'
      rcases List.mem_cons.mp hj' with rfl | hm
      · exact hj0
      · exact hf1 j' hm

theorem take_succ_getD {α : Type} (l : List α) (k : Nat) (d : α)
    (h : k < l.length) : l.take (k + 1) = l.take k ++ [l.getD k d] := by
  rw [List.take_succ, List.getD_eq_getElem l d h, List.getElem?_eq_getElem h]
  rfl

/-- The running invariant of consolidate's outer loop: the heap keeps its
length and every dictionary's results; finalresults holds distinct already-
processed indices; the finalresults dictionaries, read in order, are exactly
the pure consolidation of the processed prefix; and every dictionary not in
finalresults is untouched. -/
theorem consolidateStateAt_invariant (l : List HostResult) :
    ∀ k, k ≤ l.length →
      (consolidateStateAt l k).1.length = l.length ∧
      (∀ i, ((consolidateStateAt l k).1.getD i hrDefault).results =
        (l.getD i hrDefault).results) ∧
      (consolidateStateAt l k).2.Nodup ∧
      (∀ j ∈ (consolidateStateAt l k).2, j < k) ∧
      ((consolidateStateAt l k).2.map
        (fun j => (consolidateStateAt l k).1.getD j hrDefault) =
          consolidateP (l.take k)) ∧
      (∀ i, i ∉ (consolidateStateAt l k).2 →
        (consolidateStateAt l k).1.getD i hrDefault = l.getD i hrDefault) := by
  intro k
  induction k with
  | zero =>
    intro _
    simp [consolidateStateAt, consolidateP]
  | succ k ih =>
    intro hk1
    have hkl : k < l.length := Nat.lt_of_succ_le hk1
    obtain ⟨ha, hb, hc, hd, he, hf⟩ := ih (Nat.le_of_lt hkl)
    have hstep : consolidateStateAt l (k + 1) =
        consolidateStep (consolidateStateAt l k).1 (consolidateStateAt l k).2 k := by
      unfold consolidateStateAt
      rw [List.range_succ, List.foldl_append]
      rfl
    set arr := (consolidateStateAt l k).1 with harr
    set fin := (consolidateStateAt l k).2 with hfin
    have hknotin : k ∉ fin := fun hmem => Nat.lt_irrefl k (hd k hmem)
    have hserver : arr.getD k hrDefault = l.getD k hrDefault := hf k hknotin
    have htake : l.take (k + 1) = l.take k ++ [l.getD k hrDefault] :=
      take_succ_getD l k hrDefault hkl
    cases hfm : findMatch arr (arr.getD k hrDefault).results fin with
    | some j =>
      have hstep2 : consolidateStateAt l (k + 1) =
          (arr.set j (updGroup (arr.getD j hrDefault) (arr.getD k hrDefault)), fin) := by
        rw [hstep]; unfold consolidateStep; rw [hfm]
      obtain ⟨f1, f2, hsplit, hf1, hjres⟩ := findMatch_some_split _ _ _ _ hfm
      have hjmem : j ∈ fin := by rw [hsplit]; simp
      have hjlen : j < l.length := Nat.lt_trans (hd j hjmem) hkl
      have hjarr : j < arr.length := by rw [ha]; exact hjlen
      have hnd2 := hc
      rw [hsplit] at hnd2
      have hjf1 : j ∉ f1 := by
        rw [List.nodup_append] at hnd2
        exact fun hmem => hnd2.2.2 hmem (by simp)
      have hjf2 : j ∉ f2 := by
        rw [List.nodup_append] at hnd2
        exact (List.nodup_cons.mp hnd2.2.1).1
      rw [hstep2]
      simp only
      refine ⟨by rw [List.length_set]; exact ha, ?_, hc, ?_, ?_, ?_⟩
      · intro i
        by_cases hij : j = i
        · subst hij
          rw [getD_set_self _ _ _ _ hjarr]
          exact hb j
        · rw [getD_set_ne _ _ _ _ _ hij]
          exact hb i
      · intro j' hj'
        exact Nat.lt_succ_of_lt (hd j' hj')
      · rw [htake, consolidateP_append, ← he, hsplit]
        rw [List.map_append, List.map_append, List.map_cons, List.map_cons]
        rw [addServer_first_match _ _ _ _ ?_ ?_]
        · congr 1
          · refine List.map_congr_left ?_
            intro j' hj'
            exact getD_set_ne _ _ _ _ _ (fun hji => hjf1 (hji ▸ hj'))
          · congr 1
            · rw [getD_set_self _ _ _ _ hjarr, hserver]
            · refine List.map_congr_left ?_
              intro j' hj'
              exact getD_set_ne _ _ _ _ _ (fun hji => hjf2 (hji ▸ hj'))
        · intro g hg
          obtain ⟨j', hj', rfl⟩ := List.mem_map.mp hg
          rw [hserver] at hf1
          exact hf1 j' hj'
        · rw [hserver] at hjres
          exact hjres
      · intro i hi
        have hij : j ≠ i := fun hji => hi (hji ▸ hjmem)
        rw [getD_set_ne _ _ _ _ _ hij]
        exact hf i hi
    | none =>
      have hstep2 : consolidateStateAt l (k + 1) =
          (arr.set k (newGroup (arr.getD k hrDefault)), fin ++ [k]) := by
        rw [hstep]; unfold consolidateStep; rw [hfm]
      have hnomatch := (findMatch_none_iff _ _ _).mp hfm
      have hkarr : k < arr.length := by rw [ha]; exact hkl
      rw [hstep2]
      simp only
      refine ⟨by rw [List.length_set]; exact ha, ?_, ?_, ?_, ?_, ?_⟩
      · intro i
        by_cases hij : k = i
        · subst hij
          rw [getD_set_self _ _ _ _ hkarr]
          exact hb k
        · rw [getD_set_ne _ _ _ _ _ hij]
          exact hb i
      · rw [List.nodup_append]
        exact ⟨hc, List.nodup_singleton k, fun a ha' hb' => by
          simp only [List.mem_singleton] at hb'
          exact hknotin (hb' ▸ ha')⟩
      · intro j' hj'
        rcases List.mem_append.mp hj' with hm | hm
        · exact Nat.lt_succ_of_lt (hd j' hm)
        · simp only [List.mem_singleton] at hm
          exact hm ▸ Nat.lt_succ_self k
      · rw [htake, consolidateP_append, ← he]
        rw [List.map_append, List.map_singleton]
        rw [addServer_no_match _ _ ?_]
        · congr 1
          · refine List.map_congr_left ?_
            intro j' hj'
            exact getD_set_ne _ _ _ _ _
              (fun hji => hknotin (hji ▸ hj'))
          · rw [getD_set_self _ _ _ _ hkarr, hserver]
        · intro g hg
          obtain ⟨j', hj', rfl⟩ := List.mem_map.mp hg
          rw [hserver] at hnomatch
          exact hnomatch j' hj'
      · intro i hi
        have hik : i ∉ fin ∧ i ≠ k := by
          constructor
          · exact fun hm => hi (List.mem_append.mpr (Or.inl hm))
          · exact fun hm => hi (List.mem_append.mpr (Or.inr (by simp [hm])))
        rw [getD_set_ne _ _ _ _ _ (fun h => hik.2 h.symm)]
        exact hf i hik.1

theorem consolidate_eq_consolidateP (l : List HostResult) :
    consolidate l = consolidateP l := by
  have h := (consolidateStateAt_invariant l l.length le_rfl).2.2.2.2.1
  rw [List.take_length] at h
  exact h

/-- C1: consolidate partitions the targets.  Its output is exactly one group
per distinct results sequence, ordered by first appearance, with members in
first-seen order and grouped by deep equality of the full ordered
CommandResult sequences (the consolidateSpec form); consequently every
target belongs to exactly one group: the unique group holding results deeply
equal to its own, and its name is listed there. -/
theorem C1_consolidate_partition (l : List HostResult)
    (_hnames : ∀ s ∈ l, s.name ≠ none) :
    consolidate l = consolidateSpec l ∧
    ∀ i : Fin l.length, ∃! g, g ∈ consolidate l ∧
      g.results = (l.get i).results ∧
      (l.get i).name.getD [] ∈ g.names.getD [] := by
  have heq : consolidate l = consolidateSpec l := by
    rw [consolidate_eq_consolidateP, consolidateP_eq_spec]
  refine ⟨heq, ?_⟩
  intro i
  have hmem : l.get i ∈ l := by
    rw [List.get_eq_getElem]
    exact List.getElem_mem i.2
  have hrk : (l.get i).results ∈ firstKeys (l.map (fun s => s.results)) :=
    (mem_firstKeys _ _).mpr (List.mem_map_of_mem _ hmem)
  refine ⟨{ name := none
            names := some ((l.filter
              (fun s => s.results = (l.get i).results)).map (fun s => s.name.getD []))
            results := (l.get i).results }, ⟨?_, rfl, ?_⟩, ?_⟩
  · rw [heq]
    unfold consolidateSpec
    exact List.mem_map.mpr ⟨(l.get i).results, hrk, rfl⟩
  · simp only [Option.getD_some]
    refine List.mem_map.mpr ⟨l.get i, ?_, rfl⟩
    exact List.mem_filter.mpr ⟨hmem, by simp⟩
  · rintro g' ⟨hg', hres, _⟩
    rw [heq] at hg'
    unfold consolidateSpec at hg'
    obtain ⟨r', hr', rfl⟩ := List.mem_map.mp hg'
    have hrr : r' = (l.get i).results := hres
    subst hrr
    rfl

/-- Witness for C1 on a two-element input with equal results. -/
theorem C1_consolidate_partition_witness :
    consolidate [(⟨some "a".toList, none, []⟩ : HostResult),
        ⟨some "b".toList, none, []⟩] =
      consolidateSpec [⟨some "a".toList, none, []⟩, ⟨some "b".toList, none, []⟩] ∧
    ∃! g, g ∈ consolidate [(⟨some "a".toList, none, []⟩ : HostResult),
        ⟨some "b".toList, none, []⟩] ∧
      g.results = [] ∧ "a".toList ∈ g.names.getD [] :=
  ⟨(C1_consolidate_partition _ (by decide)).1,
    (C1_consolidate_partition
      [⟨some "a".toList, none, []⟩, ⟨some "b".toList, none, []⟩]
      (by decide)).2 ⟨0, by decide⟩⟩

/-- C9 counterexample: consolidate mutates its input.  On a one-element
input the input dictionary itself loses its "name" key and gains a "names"
key, so it is not left with its original name key unchanged. -/
theorem C9_consolidate_mutates_cex :
    ((consolidateRun
        [(⟨some "a".toList, none, [("c".toList, "r".toList)]⟩ : HostResult)]).1.getD
          0 hrDefault) ≠
      ⟨some "a".toList, none, [("c".toList, "r".toList)]⟩ ∧
    ((consolidateRun
        [(⟨some "a".toList, none, [("c".toList, "r".toList)]⟩ : HostResult)]).1.getD
          0 hrDefault).name = none ∧
    ((consolidateRun
        [(⟨some "a".toList, none, [("c".toList, "r".toList)]⟩ : HostResult)]).1.getD
          0 hrDefault).names = some ["a".toList] := by
  decide

/-- C9 (amended): consolidate never changes any input dictionary's results
sequence, and leaves every non-leader dictionary entirely unmodified; but
each group leader (the first dictionary of its equivalence class, aliased
into the returned list) is mutated in place: its "name" key is deleted
(becoming a "names" list). -/
theorem C9_amended_frame (l : List HostResult) :
    (∀ i : Fin l.length,
      ((consolidateRun l).1.getD i hrDefault).results = (l.get i).results) ∧
    (∀ i : Fin l.length, (i : Nat) ∉ (consolidateRun l).2 →
      (consolidateRun l).1.getD i hrDefault = l.get i) ∧
    (∀ j ∈ (consolidateRun l).2,
      ((consolidateRun l).1.getD j hrDefault).name = none) := by
  obtain ⟨ha, hb, hc, hd, he, hf⟩ := consolidateStateAt_invariant l l.length le_rfl
  rw [List.take_length] at he
  have hrun : consolidateRun l = consolidateStateAt l l.length := rfl
  refine ⟨?_, ?_, ?_⟩
  · intro i
    rw [hrun, hb i, List.getD_eq_getElem l hrDefault i.2, List.get_eq_getElem]
  · intro i hi
    rw [hrun] at hi ⊢
    rw [hf i hi, List.getD_eq_getElem l hrDefault i.2, List.get_eq_getElem]
  · intro j hj
    rw [hrun] at hj ⊢
    have hmem : (consolidateStateAt l l.length).1.getD j hrDefault ∈
        consolidateP l := by
      rw [← he]
      exact List.mem_map_of_mem _ hj
    rw [consolidateP_eq_spec] at hmem
    unfold consolidateSpec at hmem
    obtain ⟨r, _, hF⟩ := List.mem_map.mp hmem
    rw [← hF]

/-- Witness for C9 (amended) on a two-element input with equal results: the
follower dictionary (index 1) is untouched, the leader (index 0) has its
name key deleted. -/
theorem C9_amended_frame_witness :
    ((consolidateRun [(⟨some "a".toList, none, []⟩ : HostResult),
        ⟨some "b".toList, none, []⟩]).1.getD 1 hrDefault =
      ⟨some "b".toList, none, []⟩) ∧
    ((consolidateRun [(⟨some "a".toList, none, []⟩ : HostResult),
        ⟨some "b".toList, none, []⟩]).1.getD 0 hrDefault).name = none :=
  ⟨(C9_amended_frame
      [⟨some "a".toList, none, []⟩, ⟨some "b".toList, none, []⟩]).2.1
      ⟨1, by decide⟩ (by decide),
    (C9_amended_frame
      [⟨some "a".toList, none, []⟩, ⟨some "b".toList, none, []⟩]).2.2
      0 (by decide)⟩

/-! ## csv_results lemmas -/

/-- C4 counterexample: with the default separator ",", a result field "a,b"
contains the separator and no space, yet its row is emitted unquoted:
quoting tests only for a space, never for the separator. -/
theorem C4_separator_unquoted_cex :
    csv_results [⟨some "host".toList, none, [("cmd".toList, "a,b".toList)]⟩] {} =
      ["server,command,result\r\n".toList, "host,cmd,a,b\r\n".toList] ∧
    "a,b".toList.contains ',' = true ∧
    "a,b".toList.contains ' ' = false ∧
    csvQuote "a,b".toList = [] := by
  decide

theorem csv_row_eq_quoteIffSpace (n c r sep : List Char) :
    csv_row n c r sep =
      quoteIffSpace n ++ sep ++ quoteIffSpace c ++ sep ++
        quoteIffSpace r ++ ['\r', '\n'] := by
  unfold csv_row csvQuote quoteIffSpace
  by_cases hn : ' ' ∈ n <;> by_cases hc : ' ' ∈ c <;>
    by_cases hr : ' ' ∈ r <;> simp [hn, hc, hr]

/-- C4 (amended): in CSV output every field (server name, command, cleaned
result) is double-quoted if and only if it contains a space; the separator
character plays no part in the quoting decision, so a result containing the
separator but no space is NOT quoted, and one containing neither is not
quoted either. -/
theorem C4_amended_quote_iff_space (results : List HostResult)
    (options : CsvOptions) :
    csv_results results options =
      ("server".toList ++ options.csv_char.getD [','] ++ "command".toList ++
        options.csv_char.getD [','] ++ "result".toList ++ ['\r', '\n']) ::
      (results.map (fun server =>
        server.results.map (fun cr =>
          quoteIffSpace (csv_server_name server) ++ options.csv_char.getD [','] ++
          quoteIffSpace cr.1 ++ options.csv_char.getD [','] ++
          quoteIffSpace (csv_clean_result cr.2) ++ ['\r', '\n']))).flatten ∧
    (∀ field, field.contains ' ' = false → quoteIffSpace field = field) ∧
    (∀ field, field.contains ' ' = true →
      quoteIffSpace field = '"' :: (field ++ ['"'])) := by
  refine ⟨?_, ?_, ?_⟩
  · unfold csv_results
    congr 1
    refine congrArg List.flatten (List.map_congr_left ?_)
    intro server _
    refine List.map_congr_left ?_
    intro cr _
    exact csv_row_eq_quoteIffSpace _ _ _ _
  · intro field h
    unfold quoteIffSpace
    rw [h]
    rfl
  · intro field h
    unfold quoteIffSpace
    rw [h]
    rfl

/-! ## format_output lemmas -/

theorem format_output_go_eq_filter (command : List Char) (options : PyOptions)
    (ls : List (List Char)) :
    format_output_go command options ls =
      (ls.map (fun l => format_line l options)).filter
        (fun line => line ≠ [] ∧ ¬ cmd_in_line command line) := by
  induction ls with
  | nil => rfl
  | cons l rest ih =>
    unfold format_output_go
    by_cases h : format_line l options ≠ [] ∧ ¬ cmd_in_line command (format_line l options)
    · rw [if_pos h, List.map_cons, List.filter_cons, if_pos (by simpa using h), ih]
    · rw [if_neg h, List.map_cons, List.filter_cons, if_neg (by simpa using h), ih]

/-- C10: format_output unconditionally discards the first line (the echoed
command) and the last line (the prompt) of the raw output and joins only the
cleaned surviving lines strictly between them (a cleaned line survives when
it is non-empty and no fragment of a long command wrapped into it); in
particular any raw output of at most two lines produces the empty string. -/
theorem C10_format_output_middle_lines :
    (∀ output command options, (pySplitlines output).length ≤ 2 →
      format_output output command options = []) ∧
    (∀ output command options, format_output output command options =
      sepJoin ['\n']
        (((((pySplitlines output).drop 1).dropLast).map
          (fun l => format_line l options)).filter
            (fun line => line ≠ [] ∧ ¬ cmd_in_line command line))) := by
  constructor
  · intro output command options hlen
    have hnil : ((pySplitlines output).drop 1).dropLast = [] := by
      have h1 : (((pySplitlines output).drop 1).dropLast).length = 0 := by
        rw [List.length_dropLast, List.length_drop]
        omega
      exact List.eq_nil_of_length_eq_zero h1
    unfold format_output
    rw [hnil]
    rfl
  · intro output command options
    unfold format_output
    rw [format_output_go_eq_filter]

/-- Witness for C10: two-line and empty raw outputs give the empty string,
and the filtering form agrees on a concrete three-line output. -/
theorem C10_format_output_middle_lines_witness :
    format_output "cmd-echo\nprompt".toList "cmd-echo".toList {} = [] ∧
    format_output [] "x".toList {} = [] ∧
    format_output "cmd\nmiddle\nprompt$".toList "cmd".toList {} =
      sepJoin ['\n']
        (((((pySplitlines "cmd\nmiddle\nprompt$".toList).drop 1).dropLast).map
          (fun l => format_line l {})).filter
            (fun line => line ≠ [] ∧ ¬ cmd_in_line "cmd".toList line)) :=
  ⟨C10_format_output_middle_lines.1 _ _ {} (by decide),
    C10_format_output_middle_lines.1 _ _ {} (by decide),
    C10_format_output_middle_lines.2 _ _ {}⟩

/-! ## redaction lemmas: Python str.replace leaves no occurrence of a
pattern that its replacement text cannot recreate -/

theorem splitGo_nil (o : Char) (os : List Char) : splitGo o os [] = [[]] := by
  rw [splitGo.eq_def]

theorem splitGo_cons (o : Char) (os : List Char) (c : Char) (cs : List Char) :
    splitGo o os (c :: cs) =
      if (o :: os).isPrefixOf (c :: cs) then
        [] :: splitGo o os (List.drop os.length cs)
      else
        match splitGo o os cs with
        | [] => [[c]]
        | p :: ps => (c :: p) :: ps := by
  rw [splitGo.eq_def]

theorem replaceGo_cons (o : Char) (os new : List Char) (c : Char)
    (cs : List Char) :
    replaceGo o os new (c :: cs) =
      if (o :: os).isPrefixOf (c :: cs) then
        new ++ replaceGo o os new (List.drop os.length cs)
      else
        c :: replaceGo o os new cs := by
  rw [replaceGo.eq_def]

theorem sepJoin_cons_cons (sep p q : List Char) (ps : List (List Char)) :
    sepJoin sep (p :: q :: ps) = p ++ sep ++ sepJoin sep (q :: ps) := rfl

theorem splitGo_shape (o : Char) (os : List Char) (s : List Char) :
    ∃ p ps, splitGo o os s = p :: ps ∧ p <+: s := by
  induction s using splitGo.induct o os with
  | case1 =>
    exact ⟨[], [], splitGo_nil o os, List.nil_prefix⟩
  | case2 c cs hpre ih =>
    refine ⟨[], splitGo o os (List.drop os.length cs), ?_, List.nil_prefix⟩
    rw [splitGo_cons, if_pos hpre]
  | case3 c cs hpre hnil ih =>
    refine ⟨[c], [], ?_, ⟨cs, rfl⟩⟩
    rw [splitGo_cons, if_neg hpre, hnil]
  | case4 c cs hpre p ps hcons ih =>
    obtain ⟨p', ps', hs, hpref⟩ := ih
    rw [hcons] at hs
    cases hs
    obtain ⟨t, ht⟩ := hpref
    refine ⟨c :: p, ps, ?_, ⟨t, by rw [← ht]; rfl⟩⟩
    rw [splitGo_cons, if_neg hpre, hcons]

theorem splitGo_mem_within (o : Char) (os : List Char) (s : List Char) :
    ∀ p ∈ splitGo o os s, p <:+: s := by
  induction s using splitGo.induct o os with
  | case1 =>
    intro p hp
    have : p = [] := by
      rw [splitGo_nil] at hp
      simpa using hp
    exact this ▸ List.nil_infix
  | case2 c cs hpre ih =>
    intro p hp
    rw [splitGo_cons, if_pos hpre] at hp
    rcases List.mem_cons.mp hp with rfl | hp'
    · exact List.nil_infix
    · exact ((ih p hp').trans (List.drop_suffix _ _).isInfix).trans
        (List.suffix_cons c cs).isInfix
  | case3 c cs hpre hnil ih =>
    intro p hp
    rw [splitGo_cons, if_neg hpre, hnil] at hp
    have : p = [c] := by simpa using hp
    exact this ▸ (List.prefix_cons_inj c |>.mpr List.nil_prefix).isInfix
  | case4 c cs hpre p0 ps hcons ih =>
    intro p hp
    rw [splitGo_cons, if_neg hpre, hcons] at hp
    rcases List.mem_cons.mp hp with rfl | hp'
    · obtain ⟨p', ps', hs, hpref⟩ := splitGo_shape o os cs
      rw [hcons] at hs
      cases hs
      obtain ⟨t, ht⟩ := hpref
      have hcp : (c :: p0) <+: (c :: cs) := ⟨t, by rw [← ht]; rfl⟩
      exact hcp.isInfix
    · exact ((ih p (hcons ▸ List.mem_cons_of_mem p0 hp')).trans
        (List.suffix_cons c cs).isInfix)

theorem splitGo_pieces_clean (o : Char) (os : List Char) (s : List Char) :
    ∀ p ∈ splitGo o os s, ¬ (o :: os) <:+: p := by
  induction s using splitGo.induct o os with
  | case1 =>
    intro p hp
    have hpnil : p = [] := by
      rw [splitGo_nil] at hp
      simpa using hp
    subst hpnil
    intro h
    exact List.cons_ne_nil o os (List.infix_nil.mp h)
  | case2 c cs hpre ih =>
    intro p hp
    rw [splitGo_cons, if_pos hpre] at hp
    rcases List.mem_cons.mp hp with rfl | hp'
    · intro h
      exact List.cons_ne_nil o os (List.infix_nil.mp h)
    · exact ih p hp'
  | case3 c cs hpre hnil ih =>
    intro p hp
    rw [splitGo_cons, if_neg hpre, hnil] at hp
    have hpc : p = [c] := by simpa using hp
    subst hpc
    intro h
    have hlen : os.length + 1 ≤ 1 := by simpa using h.length_le
    have hos : os = [] := List.eq_nil_of_length_eq_zero (by omega)
    subst hos
    have : [o] = [c] := h.eq_of_length rfl
    have hoc : o = c := by simpa using this
    apply hpre
    rw [List.isPrefixOf_iff_prefix, hoc]
    exact (List.prefix_cons_inj c).mpr List.nil_prefix
  | case4 c cs hpre p0 ps hcons ih =>
    intro p hp
    rw [splitGo_cons, if_neg hpre, hcons] at hp
    rcases List.mem_cons.mp hp with rfl | hp'
    · intro h
      rcases List.infix_cons_iff.mp h with h1 | h2
      · rcases List.cons_prefix_cons.mp h1 with ⟨rfl, hos⟩
        obtain ⟨p', ps', hs, hpref⟩ := splitGo_shape o os cs
        rw [hcons] at hs
        cases hs
        apply hpre
        rw [List.isPrefixOf_iff_prefix]
        exact (List.cons_prefix_cons.mpr ⟨rfl, hos.trans hpref⟩)
      · exact ih p0 (hcons ▸ List.mem_cons_self p0 ps) h2
    · exact ih p (hcons ▸ List.mem_cons_of_mem p0 hp')

theorem replaceGo_eq_sepJoin (o : Char) (os new : List Char) (s : List Char) :
    replaceGo o os new s = sepJoin new (splitGo o os s) := by
  induction s using splitGo.induct o os with
  | case1 =>
    rw [replaceGo.eq_def, splitGo_nil]
    rfl
  | case2 c cs hpre ih =>
    rw [replaceGo_cons, if_pos hpre, splitGo_cons, if_pos hpre]
    obtain ⟨p, ps, hs, _⟩ := splitGo_shape o os (List.drop os.length cs)
    rw [ih, hs, sepJoin_cons_cons]
    simp
  | case3 c cs hpre hnil ih =>
    obtain ⟨p, ps, hs, _⟩ := splitGo_shape o os cs
    rw [hs] at hnil
    cases hnil
  | case4 c cs hpre p0 ps hcons ih =>
    have hsplit : splitGo o os (c :: cs) = (c :: p0) :: ps := by
      rw [splitGo_cons, if_neg hpre, hcons]
    rw [replaceGo_cons, if_neg hpre, ih, hcons, hsplit]
    cases ps with
    | nil => rfl
    | cons q ps' =>
      rw [sepJoin_cons_cons, sepJoin_cons_cons]
      simp

theorem append_infix_cases (pat a b : List Char) (h : pat <:+: a ++ b) :
    pat <:+: a ∨ pat <:+: b ∨
      ∃ s1 s2, pat = s1 ++ s2 ∧ s1 ≠ [] ∧ s2 ≠ [] ∧ s1 <:+ a ∧ s2 <+: b := by
  obtain ⟨u, v, huv⟩ := h
  rcases List.append_eq_append_iff.mp huv with ⟨w, ha, hv⟩ | ⟨w, hup, hb⟩
  · left
    exact ⟨u, w, by rw [ha]⟩
  · rcases List.append_eq_append_iff.mp hup with ⟨x, hax, hpat⟩ | ⟨x, hu, hw⟩
    · rcases eq_or_ne x [] with rfl | hxne
      · right; left
        refine ⟨[], v, ?_⟩
        simp only [List.nil_append] at hpat
        rw [hb, ← hpat]
        simp
      · rcases eq_or_ne w [] with rfl | hwne
        · left
          refine ⟨u, [], ?_⟩
          simp only [List.append_nil] at hpat ⊢
          rw [hax, hpat]
        · right; right
          refine ⟨x, w, hpat, hxne, hwne, ⟨u, hax.symm⟩, ⟨v, hb.symm⟩⟩
    · right; left
      refine ⟨x, v, ?_⟩
      rw [hb, hw]

theorem not_infix_sepJoin (pat new : List Char) (ps : List (List Char))
    (hpat : pat ≠ []) (hnew : new ≠ []) (hdisj : ∀ c ∈ new, c ∉ pat)
    (hclean : ∀ p ∈ ps, ¬ pat <:+: p) : ¬ pat <:+: sepJoin new ps := by
  induction ps with
  | nil =>
    intro h
    exact hpat (List.infix_nil.mp h)
  | cons p ps ih =>
    cases ps with
    | nil => exact hclean p (List.mem_cons_self p [])
    | cons q ps' =>
      intro h
      rw [sepJoin_cons_cons] at h
      have hlastnew : ∀ s1 : List Char, s1 ≠ [] → s1 <:+ p ++ new →
          ∃ c, c ∈ s1 ∧ c ∈ new := by
        intro s1 hs1ne hs1
        obtain ⟨w, hw⟩ := hs1
        have h1 : (p ++ new).getLast? = some (new.getLast hnew) := by
          rw [List.getLast?_append, List.getLast?_eq_getLast_of_ne_nil hnew]
          rfl
        have h2 : (w ++ s1).getLast? = some (s1.getLast hs1ne) := by
          rw [List.getLast?_append, List.getLast?_eq_getLast_of_ne_nil hs1ne]
          rfl
        rw [hw, h1] at h2
        have : s1.getLast hs1ne = new.getLast hnew := by
          injection h2.symm
        exact ⟨s1.getLast hs1ne, List.getLast_mem hs1ne,
          this ▸ List.getLast_mem hnew⟩
      rcases append_infix_cases _ _ _ h with h1 | h1 |
        ⟨s1, s2, hps, hs1ne, hs2ne, hs1, hs2⟩
      · rcases append_infix_cases _ _ _ h1 with h2 | h2 |
          ⟨s1, s2, hps, hs1ne, hs2ne, hs1, hs2⟩
        · exact hclean p (List.mem_cons_self p _) h2
        · obtain ⟨c, cs, rfl⟩ : ∃ c cs, pat = c :: cs := by
            cases pat with
            | nil => exact absurd rfl hpat
            | cons c cs => exact ⟨c, cs, rfl⟩
          exact hdisj c (h2.subset (List.mem_cons_self c cs))
            (List.mem_cons_self c cs)
        · obtain ⟨c, hcs2, hcnew⟩ : ∃ c, c ∈ s2 ∧ c ∈ new := by
            obtain ⟨c, cs, rfl⟩ : ∃ c cs, s2 = c :: cs := by
              cases s2 with
              | nil => exact absurd rfl hs2ne
              | cons c cs => exact ⟨c, cs, rfl⟩
            exact ⟨c, List.mem_cons_self c cs,
              hs2.subset (List.mem_cons_self c cs)⟩
          exact hdisj c hcnew (hps ▸ List.mem_append.mpr (Or.inr hcs2))
      · exact ih (fun p' hp' => hclean p' (List.mem_cons_of_mem p hp')) h1
      · obtain ⟨c, hcs1, hcnew⟩ := hlastnew s1 hs1ne hs1
        exact hdisj c hcnew (hps ▸ List.mem_append.mpr (Or.inl hcs1))

/-- After one greedy replace pass, no occurrence of the pattern remains as
long as the replacement text shares no character with the pattern. -/
theorem not_infix_replaceGo (o : Char) (os new : List Char) (s : List Char)
    (hnew : new ≠ []) (hdisj : ∀ c ∈ new, c ∉ (o :: os)) :
    ¬ (o :: os) <:+: replaceGo o os new s := by
  rw [replaceGo_eq_sepJoin]
  exact not_infix_sepJoin _ _ _ (List.cons_ne_nil o os) hnew hdisj
    (splitGo_pieces_clean o os s)

/-- A later replace pass whose replacement text shares no character with pat
cannot recreate an occurrence of pat. -/
theorem replaceGo_preserves_absent (pat : List Char) (o : Char)
    (os new s : List Char) (hs : ¬ pat <:+: s) (hpat : pat ≠ [])
    (hnew : new ≠ []) (hdisj : ∀ c ∈ new, c ∉ pat) :
    ¬ pat <:+: replaceGo o os new s := by
  rw [replaceGo_eq_sepJoin]
  refine not_infix_sepJoin _ _ _ hpat hnew hdisj ?_
  intro p hp hinf
  exact hs (hinf.trans (splitGo_mem_within o os s p hp))

theorem pyReplace_nil_nil (s : List Char) : pyReplace [] [] s = s := by
  unfold pyReplace
  induction s with
  | nil => rfl
  | cons c cs ih =>
    simp only [List.map_cons, List.flatten_cons, List.nil_append] at ih ⊢
    rw [ih]
    rfl

theorem redactOne_establishes (line p : List Char) (hp : p ≠ [])
    (hstar : '*' ∉ p) : ¬ p <:+: redactOne line p := by
  obtain ⟨o, os, rfl⟩ : ∃ o os, p = o :: os := by
    cases p with
    | nil => exact absurd rfl hp
    | cons o os => exact ⟨o, os, rfl⟩
  unfold redactOne pyReplace
  refine not_infix_replaceGo o os _ line (by simp) ?_
  intro c hc
  rw [List.eq_of_mem_replicate hc]
  exact hstar

theorem redactOne_preserves (pat line q : List Char) (h : ¬ pat <:+: line)
    (hpat : pat ≠ []) (hstar : '*' ∉ pat) : ¬ pat <:+: redactOne line q := by
  cases q with
  | nil =>
    unfold redactOne
    rw [show List.replicate ([] : List Char).length '*' = [] from rfl,
      pyReplace_nil_nil]
    exact h
  | cons o os =>
    unfold redactOne pyReplace
    refine replaceGo_preserves_absent pat o os _ line h hpat (by simp) ?_
    intro c hc
    rw [List.eq_of_mem_replicate hc]
    exact hstar

theorem foldl_redact_preserves (pat : List Char) (qs : List (List Char))
    (line : List Char) (h : ¬ pat <:+: line) (hpat : pat ≠ [])
    (hstar : '*' ∉ pat) : ¬ pat <:+: qs.foldl redactOne line := by
  induction qs generalizing line with
  | nil => exact h
  | cons q qs ih =>
    rw [List.foldl_cons]
    exact ih _ (redactOne_preserves pat line q h hpat hstar)

theorem foldl_redact_establishes (pat : List Char) (qs : List (List Char))
    (line : List Char) (hmem : pat ∈ qs) (hpat : pat ≠ [])
    (hstar : '*' ∉ pat) : ¬ pat <:+: qs.foldl redactOne line := by
  induction qs generalizing line with
  | nil => simp at hmem
  | cons q qs ih =>
    rw [List.foldl_cons]
    rcases List.mem_cons.mp hmem with rfl | hmem'
    · exact foldl_redact_preserves pat qs _
        (redactOne_establishes line pat hpat hstar) hpat hstar
    · exact ih _ hmem' 

theorem applyPw_establishes (line : List Char) (v : Option PwVal)
    (p : List Char) (hmem : p ∈ pwValues v) (hp : p ≠ [])
    (hstar : '*' ∉ p) : ¬ p <:+: applyPw line v := by
  match v with
  | none => simp [pwValues] at hmem
  | some (.str s) =>
    rcases eq_or_ne s [] with rfl | hs
    · simp [pwValues] at hmem
    · have hps : p = s := by simpa [pwValues, hs] using hmem
      subst hps
      rw [show applyPw line (some (.str p)) = redactOne line p from by
        unfold applyPw pwTruthy; rw [if_pos (by simpa using hp)]]
      exact redactOne_establishes line p hp hstar
  | some (.many l) =>
    rcases eq_or_ne l [] with rfl | hl
    · simp [pwValues] at hmem
    · have hml : p ∈ l := by simpa [pwValues, hl] using hmem
      rw [show applyPw line (some (.many l)) = l.foldl redactOne line from by
        unfold applyPw pwTruthy; rw [if_pos (by simpa using hl)]]
      exact foldl_redact_establishes p l line hml hp hstar

theorem applyPw_preserves (line : List Char) (v : Option PwVal)
    (p : List Char) (h : ¬ p <:+: line) (hp : p ≠ [])
    (hstar : '*' ∉ p) : ¬ p <:+: applyPw line v := by
  unfold applyPw
  by_cases ht : pwTruthy v
  · rw [if_pos ht]
    match v with
    | none => exact h
    | some (.str s) => exact redactOne_preserves p line s h hp hstar
    | some (.many l) => exact foldl_redact_preserves p l line h hp hstar
  · rw [if_neg ht]
    exact h

/-- C8 counterexample: a configured secret consisting of the single
character '*' survives redaction verbatim: line.replace("*", "*") is the
identity, so the cleaned line still contains the secret. -/
theorem C8_star_secret_remains_cex :
    format_line "*".toList { password := some (.str "*".toList) } = "*".toList ∧
    "*".toList <:+:
      format_line "*".toList { password := some (.str "*".toList) } := by
  have h : format_line "*".toList { password := some (.str "*".toList) } =
      "*".toList := by
    simp [format_line, stripChar, pyReplace, replaceGo, pySubCSI, applyPw,
      pwTruthy, redactOne, isPySpace, List.isPrefixOf, List.dropWhile]
  refine ⟨h, ?_⟩
  exact h.symm ▸ (⟨[], [], by simp⟩ : "*".toList <:+: "*".toList)

/-- C8 (amended): for every line and every configured non-empty secret value
that does not itself contain the replacement character '*' (primary
password, second password, jump password, or any member of a configured
password list), the cleaned line produced by format_line contains no
occurrence of the literal secret: each occurrence was replaced by an
equal-length run of '*', and no later replacement can recreate one. -/
theorem C8_amended_no_secret_in_output (line : List Char)
    (options : PyOptions) (p : List Char)
    (hmem : p ∈ pwValues options.password ++ pwValues options.second_password ++
      pwValues options.jump_password)
    (hp : p ≠ []) (hstar : '*' ∉ p) :
    ¬ p <:+: format_line line options := by
  unfold format_line
  rcases List.mem_append.mp hmem with hmem1 | hmem3
  · rcases List.mem_append.mp hmem1 with hmem1 | hmem2
    · exact applyPw_preserves _ _ _
        (applyPw_preserves _ _ _ (applyPw_establishes _ _ _ hmem1 hp hstar)
          hp hstar) hp hstar
    · exact applyPw_preserves _ _ _
        (applyPw_establishes _ _ _ hmem2 hp hstar) hp hstar
  · exact applyPw_establishes _ _ _ hmem3 hp hstar

/-- Witness for C8 (amended): the secret "pw" never survives into the
cleaned line. -/
theorem C8_amended_no_secret_in_output_witness :
    ¬ "pw".toList <:+:
      format_line "my pw is pw!".toList
        { password := some (.str "pw".toList) } :=
  C8_amended_no_secret_in_output "my pw is pw!".toList
    { password := some (.str "pw".toList) } "pw".toList
    (by decide) (by decide) (by decide)

/-! ## interactive.py session lemmas -/

/-- C5: on a dropped connection (OSError errno 5) during run(command),
exactly one reconnect is attempted — the transport log shows one close and
one connect — and on reconnect success the same command is retried exactly
once (two sends of the command in total); if the reconnect fails (negative
connect error), run returns "connection to t was lost" and self.sshr
becomes None (Closed); and any run on a Closed session returns
"connection to t is closed" while consuming no transport event and logging
no transport call. -/
theorem C5_drop_reconnect_once (t cmd : List Char) (h0 h1 : Nat) (e : Int)
    (he : e < 0) (outp : List Char) (sc : Option Nat) (tr2 : List TEvent)
    (log2 : List TCall) :
    runI { jump_host := none } t cmd ⟨⟨.conn h0, sc⟩,
        [.sent (.oserror 5), .closeDone none, .connected h1 0,
          .sent (.out outp)], []⟩ =
      .ok (outp, ⟨⟨.conn h1, sc⟩, [],
        [.callSend cmd, .callClose, .callConnect t, .callSend cmd]⟩) ∧
    runI { jump_host := none } t cmd ⟨⟨.conn h0, sc⟩,
        [.sent (.oserror 5), .closeDone none, .connected h1 e], []⟩ =
      .ok (lostMsg t, ⟨⟨.closedS, sc⟩, [],
        [.callSend cmd, .callClose, .callConnect t]⟩) ∧
    runI { jump_host := none } t cmd ⟨⟨.closedS, sc⟩, tr2, log2⟩ =
      .ok (closedMsg t, ⟨⟨.closedS, sc⟩, tr2, log2⟩) := by
  refine ⟨?_, ?_, ?_⟩
  · simp [runI, runFuel, loginI, connectI, connectTargetI, reconnectI, endI,
      brSend, brClose, brConnect, jumpTruthy]
  · simp [runI, runFuel, loginI, connectI, connectTargetI, reconnectI, endI,
      brSend, brClose, brConnect, jumpTruthy, he,
      show ¬ ((0 : Int) ≤ e) from by omega]
  · simp [runI, runFuel, loginI]

/-- Witness for C5 at a concrete failed reconnect error code. -/
theorem C5_drop_reconnect_once_witness :
    runI { jump_host := none } "srv".toList "ls".toList ⟨⟨.conn 7, none⟩,
        [.sent (.oserror 5), .closeDone none, .connected 9 (-1)], []⟩ =
      .ok (lostMsg "srv".toList, ⟨⟨.closedS, none⟩, [],
        [.callSend "ls".toList, .callClose, .callConnect "srv".toList]⟩) :=
  (C5_drop_reconnect_once "srv".toList "ls".toList 7 9 (-1) (by omega)
    "OUT".toList none [] []).2.1

/-- C6: after exactly one connection drop followed by a healthy reconnect —
the (optional) jump transport and the target transport both reopening
successfully — run(command) returns the command's real output text, not an
error marker, and the session is left Connected (self.sshr holds the new
live handle). -/
theorem C6_reconnect_returns_output (t cmd j : List Char) (hj : j ≠ [])
    (h0 hj1 ht1 : Nat) (outp : List Char) (sc : Option Nat) :
    runI { jump_host := none } t cmd ⟨⟨.conn h0, sc⟩,
        [.sent (.oserror 5), .closeDone none, .connected ht1 0,
          .sent (.out outp)], []⟩ =
      .ok (outp, ⟨⟨.conn ht1, sc⟩, [],
        [.callSend cmd, .callClose, .callConnect t, .callSend cmd]⟩) ∧
    runI { jump_host := some j } t cmd ⟨⟨.conn h0, sc⟩,
        [.sent (.oserror 5), .closeDone none, .closeDone none,
          .connected hj1 0, .connected ht1 0, .sent (.out outp)], []⟩ =
      .ok (outp, ⟨⟨.conn ht1, some hj1⟩, [],
        [.callSend cmd, .callClose, .callClose, .callConnect j,
          .callConnect t, .callSend cmd]⟩) := by
  constructor
  · simp [runI, runFuel, loginI, connectI, connectTargetI, reconnectI, endI,
      brSend, brClose, brConnect, jumpTruthy]
  · simp [runI, runFuel, loginI, connectI, connectTargetI, reconnectI, endI,
      brSend, brClose, brConnect, jumpTruthy, hj]

/-- Witness for C6 with a concrete jump host. -/
theorem C6_reconnect_returns_output_witness :
    runI { jump_host := some "jump".toList } "srv".toList "ls".toList
        ⟨⟨.conn 7, some 3⟩,
          [.sent (.oserror 5), .closeDone none, .closeDone none,
            .connected 11 0, .connected 12 0, .sent (.out "OUT".toList)], []⟩ =
      .ok ("OUT".toList, ⟨⟨.conn 12, some 11⟩, [],
        [.callSend "ls".toList, .callClose, .callClose,
          .callConnect "jump".toList, .callConnect "srv".toList,
          .callSend "ls".toList]⟩) :=
  (C6_reconnect_returns_output "srv".toList "ls".toList "jump".toList
    (by decide) 7 11 12 "OUT".toList (some 3)).2

end Bladerunner
